import Mathlib

/-!
Verification of the geostreamdb core against its specification.

The Go sources are shallowly embedded: pure functions become Lean
functions, Go `map` values are modelled as functions with the zero value
as default (or as association lists where key presence matters),
`int64`/`int32` become `Int` with two's-complement wrap-around made
explicit where an operation could overflow, `float64` values that only
flow through comparisons are modelled as exact rationals (plus explicit
NaN/Inf constructors where the code tests for them), and external
collaborators (the xxh3 hash, gRPC connections and calls, the
floating-point geometry helpers of the gateway) are abstracted as
parameters, since every property proved here is quantified over all of
their outcomes.
-/

/-! ## Worker storage engine: trie over geohash strings
    (src/worker-node/ping.go) -/

namespace Worker

/-- Two's-complement wrap of an `Int` to the `int64` range, used where a
Go `int64` is incremented. `Int.bmod x (2^64)` lands in
`[-2^63, 2^63)`, exactly the `int64` values. -/
def i64 (x : Int) : Int := Int.bmod x (2 ^ 64)

/-- `TrieNode` from ping.go: a count plus children keyed by byte
(modelled as `Char`); a Go `nil` children map is the constantly-`none`
function. -/
inductive TrieNode where
  | mk (count : Int) (children : Char → Option TrieNode)

def TrieNode.count : TrieNode → Int
  | .mk c _ => c

def TrieNode.children : TrieNode → Char → Option TrieNode
  | .mk _ ch => ch

/-- A freshly allocated `&TrieNode{Count: 0}`: zero count, nil children. -/
def freshNode : TrieNode := .mk 0 (fun _ => none)

/-- `TrieNode.Increment` from ping.go lines 106-125: increment the root
count, then walk the geohash character by character, creating children
on demand and incrementing each visited node's count. -/
def TrieNode.Increment : TrieNode → List Char → TrieNode
  | t, [] => .mk (i64 (t.count + 1)) t.children
  | t, c :: rest =>
      .mk (i64 (t.count + 1))
        (fun d => if d = c
          then some (((t.children c).getD freshNode).Increment rest)
          else t.children d)

/-- `TrieNode.GetCount` from ping.go lines 127-148: descend the trie
following the geohash; a missing child yields 0. -/
def TrieNode.GetCount : TrieNode → List Char → Int
  | t, [] => t.count
  | t, c :: rest =>
      match t.children c with
      | none => 0
      | some child => child.GetCount rest

/-- All counts in the trie lie in `[0, N]`; while this holds with
`N + 1 ≤ 2^63 - 1`, the `int64` increment cannot wrap. -/
inductive Bounded (N : Int) : TrieNode → Prop
  | mk (count : Int) (children : Char → Option TrieNode) :
      0 ≤ count → count ≤ N →
      (∀ c t, children c = some t → Bounded N t) →
      Bounded N (.mk count children)

theorem Bounded.nonneg {N : Int} {t : TrieNode} (h : Bounded N t) : 0 ≤ N := by
  cases h with
  | mk count children h0 h1 _ => exact le_trans h0 h1

theorem Bounded.mono {N M : Int} {t : TrieNode} (h : Bounded N t) (hNM : N ≤ M) :
    Bounded M t := by
  induction h with
  | mk count children h0 h1 _ ih =>
      exact .mk count children h0 (le_trans h1 hNM) (fun c t hc => ih c t hc)

theorem bounded_freshNode {N : Int} (h : 0 ≤ N) : Bounded N freshNode :=
  .mk 0 (fun _ => none) le_rfl h (by intro c t hc; cases hc)

theorem i64_eq_self {x : Int} (h0 : 0 ≤ x) (h1 : x ≤ 2 ^ 63 - 1) : i64 x = x := by
  have h1' : x ≤ 9223372036854775807 := by
    have e : (2 : Int) ^ 63 - 1 = 9223372036854775807 := by norm_num
    omega
  unfold i64
  unfold Int.bmod
  have e2 : ((2 ^ 64 : Nat) : Int) = 18446744073709551616 := by norm_num
  rw [e2]
  rw [Int.emod_eq_of_lt h0 (by omega)]
  have e3 : ((18446744073709551616 : Int) + 1) / 2 = 9223372036854775808 := by norm_num
  simp only [e3]
  rw [if_pos (by omega : x < (9223372036854775808 : Int))]

theorem Bounded.increment : ∀ (g : List Char) {N : Int} {t : TrieNode},
    Bounded N t → N + 1 ≤ 2 ^ 63 - 1 → Bounded (N + 1) (t.Increment g) := by
  intro g
  induction g with
  | nil =>
      intro N t h hN
      cases h with
      | mk count children h0 h1 hch =>
          rw [TrieNode.Increment]
          have hc : TrieNode.count (.mk count children) = count := rfl
          rw [hc, i64_eq_self (by omega) (by omega)]
          exact .mk _ _ (by omega) (by omega)
            (fun c u hcu => (hch c u hcu).mono (by omega))
  | cons c rest ih =>
      intro N t h hN
      cases h with
      | mk count children h0 h1 hch =>
          rw [TrieNode.Increment]
          have hc : TrieNode.count (.mk count children) = count := rfl
          rw [hc, i64_eq_self (by omega) (by omega)]
          refine .mk _ _ (by omega) (by omega) ?_
          intro d u hdu
          by_cases hdc : d = c
          · subst hdc
            simp only [if_pos rfl] at hdu
            cases hdu
            have hbase : Bounded N ((TrieNode.children (.mk count children) d).getD freshNode) := by
              have hch' : TrieNode.children (.mk count children) = children := rfl
              rw [hch']
              cases hcd : children d with
              | none => exact bounded_freshNode (by omega)
              | some u0 => exact hch d u0 hcd
            exact ih hbase hN
          · simp only [if_neg hdc] at hdu
            exact (hch d u hdu).mono (by omega)

theorem freshNode_getCount (p : List Char) : freshNode.GetCount p = 0 := by
  cases p with
  | nil => rfl
  | cons a r => rfl

/-- One `Increment g` adds 1 to the count read at exactly the paths `p`
that are prefixes of `g`, and leaves every other path's count unchanged. -/
theorem getCount_increment : ∀ (p g : List Char) {N : Int} {t : TrieNode},
    Bounded N t → N + 1 ≤ 2 ^ 63 - 1 →
    (t.Increment g).GetCount p = t.GetCount p + (if p <+: g then 1 else 0) := by
  intro p
  induction p with
  | nil =>
      intro g N t h hN
      cases h with
      | mk count children h0 h1 hch =>
          have hroot : ∀ g0 : List Char,
              ((TrieNode.mk count children).Increment g0).GetCount [] = i64 (count + 1) := by
            intro g0
            cases g0 with
            | nil => rfl
            | cons c r => rfl
          rw [hroot g, i64_eq_self (by omega) (by omega)]
          simp [TrieNode.GetCount, TrieNode.count, List.nil_prefix]
  | cons a p' ih =>
      intro g N t h hN
      cases h with
      | mk count children h0 h1 hch =>
          cases g with
          | nil =>
              rw [TrieNode.Increment]
              simp only [TrieNode.GetCount, TrieNode.children]
              have : ¬ (a :: p' <+: ([] : List Char)) := by simp
              rw [if_neg this]
              omega
          | cons c r =>
              rw [TrieNode.Increment]
              by_cases hac : a = c
              · subst hac
                have hbase : Bounded N ((children a).getD freshNode) := by
                  cases hca : children a with
                  | none => exact bounded_freshNode (by omega)
                  | some u => exact hch a u hca
                have hih := ih r hbase hN
                cases hca : children a with
                | none =>
                    simp only [hca, Option.getD_none] at hih
                    simp [TrieNode.GetCount, TrieNode.children, hca, hih,
                      freshNode_getCount, List.cons_prefix_cons]
                | some u =>
                    simp only [hca, Option.getD_some] at hih
                    simp [TrieNode.GetCount, TrieNode.children, hca, hih,
                      List.cons_prefix_cons]
              · simp [TrieNode.GetCount, TrieNode.children, hac,
                  List.cons_prefix_cons]

/-- Inserting every geohash of `L` in order into trie `t`
(the fold mirrors the per-request `Increment` calls). -/
def insertList (t : TrieNode) (L : List (List Char)) : TrieNode :=
  L.foldl (fun u g => u.Increment g) t

/-- A fresh bucket root after the whole sequence of inserts. -/
def insertAll (L : List (List Char)) : TrieNode := insertList freshNode L

theorem insertList_getCount : ∀ (L : List (List Char)) {N : Int} {t : TrieNode}
    (p : List Char), Bounded N t → N + L.length ≤ 2 ^ 63 - 1 →
    (insertList t L).GetCount p
      = t.GetCount p + L.countP (fun g => decide (p <+: g)) := by
  intro L
  induction L with
  | nil =>
      intro N t p h hN
      simp [insertList]
  | cons g L' ih =>
      intro N t p h hN
      have hlen : (L'.length : Int) ≥ 0 := by positivity
      have hN1 : N + 1 ≤ 2 ^ 63 - 1 := by
        simp only [List.length_cons] at hN
        push_cast at hN
        omega
      have hstep := getCount_increment p g h hN1
      have hbt : Bounded (N + 1) (t.Increment g) := Bounded.increment g h hN1
      have hN2 : (N + 1) + L'.length ≤ 2 ^ 63 - 1 := by
        simp only [List.length_cons] at hN
        push_cast at hN ⊢
        omega
      have := ih p hbt hN2
      simp only [insertList, List.foldl_cons] at this ⊢
      rw [this, hstep]
      rw [List.countP_cons]
      push_cast
      by_cases hp : p <+: g
      · simp [hp]; ring
      · simp [hp]

/-- Claim C1: after inserting a finite sequence `L` of geohash strings
via `Increment` into a fresh trie root, `GetCount p` returns exactly the
number of inserted geohashes having `p` as a prefix, and the root's own
count equals the total number of inserts.  (The length bound keeps the
`int64` counters from wrapping.) -/
theorem c1_trie_prefix_counts (L : List (List Char))
    (hlen : (L.length : Int) ≤ 2 ^ 63 - 1) :
    (∀ p : List Char,
        (insertAll L).GetCount p = L.countP (fun g => decide (p <+: g))) ∧
    (insertAll L).GetCount [] = L.length := by
  have hb : Bounded 0 freshNode := bounded_freshNode le_rfl
  have main : ∀ p : List Char,
      (insertAll L).GetCount p = L.countP (fun g => decide (p <+: g)) := by
    intro p
    have := insertList_getCount L p hb (by omega)
    rw [insertAll, this, freshNode_getCount]
    ring
  refine ⟨main, ?_⟩
  rw [main []]
  have : L.countP (fun g => decide (([] : List Char) <+: g)) = L.length := by
    rw [List.countP_eq_length]
    intro a _
    simp [List.nil_prefix]
  rw [this]

/-- Witness for C1 at the concrete insert sequence
`["ab", "ac", ""]`: the `"a"` path counts 2, the root counts 3. -/
theorem c1_trie_prefix_counts_witness :
    (insertAll [['a','b'], ['a','c'], []]).GetCount ['a'] = 2 ∧
    (insertAll [['a','b'], ['a','c'], []]).GetCount [] = 3 := by
  have h := c1_trie_prefix_counts [['a','b'], ['a','c'], []] (by decide)
  refine ⟨?_, ?_⟩
  · rw [h.1 ['a']]; decide
  · rw [h.2]; decide

/-! ### Geohash bbox decoding and the coarse branch of `GetAreaCount`
(ping.go lines 13-76 and 150-204).  All float64 values here are exact
dyadic rationals (repeated halving of ±90/±180), so `ℚ` models the
float arithmetic without error. -/

/-- `ghBbox` from ping.go lines 13-18. -/
structure ghBbox where
  minLat : ℚ
  maxLat : ℚ
  minLng : ℚ
  maxLng : ℚ

/-- `ghBbox.intersects` from ping.go lines 20-23: strict overlap, upper
bounds exclusive. -/
def ghBbox.intersects (a b : ghBbox) : Bool :=
  decide (a.minLat < b.maxLat) && decide (a.maxLat > b.minLat) &&
    decide (a.minLng < b.maxLng) && decide (a.maxLng > b.minLng)

/-- The base-32 geohash alphabet (ping.go line 25). -/
def geohashBase32 : List Char := "0123456789bcdefghjkmnpqrstuvwxyz".toList

def idxOfChar : List Char → Char → Option Nat
  | [], _ => none
  | a :: r, c => if a = c then some 0 else (idxOfChar r c).map (· + 1)

/-- ASCII uppercase-to-lowercase normalization (ping.go lines 47-49). -/
def lowerAscii (c : Char) : Char :=
  if 'A' ≤ c ∧ c ≤ 'Z' then Char.ofNat (c.toNat + 32) else c

/-- The `charmap` lookup of ping.go lines 32-38 and 50-52: index of the
(normalized) character in the alphabet, or failure. -/
def base32Val (c : Char) : Option Nat := idxOfChar geohashBase32 (lowerAscii c)

/-- One bit of the decode loop (ping.go lines 54-72): halve the
longitude or latitude interval and flip the `isLng` flag. -/
def refineBit (v : Nat) (st : ghBbox × Bool) (bit : Nat) : ghBbox × Bool :=
  let b := st.1
  if st.2 then
    let mid := (b.minLng + b.maxLng) / 2
    if v.testBit bit then (⟨b.minLat, b.maxLat, mid, b.maxLng⟩, false)
    else (⟨b.minLat, b.maxLat, b.minLng, mid⟩, false)
  else
    let mid := (b.minLat + b.maxLat) / 2
    if v.testBit bit then (⟨mid, b.maxLat, b.minLng, b.maxLng⟩, true)
    else (⟨b.minLat, mid, b.minLng, b.maxLng⟩, true)

def decodeChars : List Char → ghBbox × Bool → Option (ghBbox × Bool)
  | [], st => some st
  | c :: rest, st =>
      match base32Val c with
      | none => none
      | some v => decodeChars rest ([4, 3, 2, 1, 0].foldl (refineBit v) st)

/-- `geohashDecodeBbox` from ping.go lines 27-76: reject the empty
string, then refine the world box five bits per character, starting
with longitude. -/
def geohashDecodeBbox (gh : List Char) : Option ghBbox :=
  if gh = [] then none
  else (decodeChars gh (⟨-90, 90, -180, 180⟩, true)).map (·.1)

/-- The child-walk of GetAreaCount lines 169-185: does the trie contain
a node at this path? -/
def TrieNode.hasPath : TrieNode → List Char → Bool
  | _, [] => true
  | t, c :: rest =>
      match t.children c with
      | none => false
      | some u => u.hasPath rest

theorem getCount_of_hasPath_false : ∀ (p : List Char) (t : TrieNode),
    t.hasPath p = false → t.GetCount p = 0 := by
  intro p
  induction p with
  | nil => intro t h; simp [TrieNode.hasPath] at h
  | cons c r ih =>
      intro t h
      rw [TrieNode.hasPath] at h
      rw [TrieNode.GetCount]
      cases hc : t.children c with
      | none => rfl
      | some u =>
          rw [hc] at h
          exact ih u h

/-- Loop body of `TrieNode.GetAreaCount` (ping.go lines 164-204) in the
`precision <= aggPrecision` case: skip short cells, skip cells whose
aggregated path is absent from the trie, skip undecodable or
non-overlapping cells, otherwise add the stored count to the coarser
output key. -/
def TrieNode.areaCoarseStep (t : TrieNode) (precision aggPrecision : Int)
    (q : ghBbox) (m : List Char → Int) (c : List Char) : List Char → Int :=
  if (c.length : Int) < aggPrecision then m
  else if t.hasPath (c.take aggPrecision.toNat) = false then m
  else
    match geohashDecodeBbox (c.take aggPrecision.toNat) with
    | none => m
    | some cell =>
        if cell.intersects q then
          fun x => if x = c.take precision.toNat
            then m x + t.GetCount (c.take aggPrecision.toNat)
            else m x
        else m

/-- `TrieNode.GetAreaCount` (ping.go lines 150-204) restricted to its
`precision <= aggPrecision` branch; under that hypothesis (the one the
claim is about) the DFS branch of lines 206-243 is unreachable.  The Go
`map[string]int64` result is modelled as a total function with the
zero value 0 for absent keys; `nil` results collapse to the zero
function. -/
def TrieNode.GetAreaCountCoarse (t : TrieNode) (precision aggPrecision : Int)
    (q : ghBbox) (cells : List (List Char)) : List Char → Int :=
  if precision < 1 ∨ aggPrecision < 1 then fun _ => 0
  else cells.foldl (t.areaCoarseStep precision aggPrecision q) (fun _ => 0)

/-- Contribution of a single routed cover cell to an output key, written
as the specification describes it: the count stored at path
`c[:aggPrecision]` goes to key `c[:precision]` exactly when the decoded
cell bbox strictly overlaps the query bbox. -/
def coarseCellContribution (t : TrieNode) (precision aggPrecision : Int)
    (q : ghBbox) (c k : List Char) : Int :=
  if aggPrecision ≤ (c.length : Int) ∧ k = c.take precision.toNat then
    match geohashDecodeBbox (c.take aggPrecision.toNat) with
    | some cell =>
        if cell.intersects q then t.GetCount (c.take aggPrecision.toNat) else 0
    | none => 0
  else 0

theorem areaCoarseStep_spec (t : TrieNode) (precision aggPrecision : Int)
    (q : ghBbox) (m : List Char → Int) (c k : List Char) :
    t.areaCoarseStep precision aggPrecision q m c k
      = m k + coarseCellContribution t precision aggPrecision q c k := by
  rw [TrieNode.areaCoarseStep]
  by_cases hlen : (c.length : Int) < aggPrecision
  · have hnot : ¬ (aggPrecision ≤ (c.length : Int) ∧ k = c.take precision.toNat) := by
      intro hh; omega
    simp [hlen, coarseCellContribution, hnot]
  · push_neg at hlen
    rw [if_neg (by omega)]
    by_cases hpath : t.hasPath (c.take aggPrecision.toNat) = false
    · have hz := getCount_of_hasPath_false _ _ hpath
      rw [if_pos hpath]
      cases hdec : geohashDecodeBbox (c.take aggPrecision.toNat) with
      | none => simp [coarseCellContribution, hdec]
      | some cell =>
          by_cases hint : cell.intersects q = true
          · simp [coarseCellContribution, hdec, hint, hz]
          · simp [coarseCellContribution, hdec, hint]
    · rw [if_neg hpath]
      cases hdec : geohashDecodeBbox (c.take aggPrecision.toNat) with
      | none => simp [coarseCellContribution, hdec]
      | some cell =>
          by_cases hint : cell.intersects q = true
          · simp only [hdec, hint, if_true]
            by_cases hk : k = c.take precision.toNat
            · simp [coarseCellContribution, hdec, hint, hk, hlen]
            · simp [coarseCellContribution, hk]
          · simp [coarseCellContribution, hdec, hint]

theorem getAreaCoarse_foldl (t : TrieNode) (precision aggPrecision : Int)
    (q : ghBbox) :
    ∀ (cells : List (List Char)) (m : List Char → Int) (k : List Char),
    (cells.foldl (t.areaCoarseStep precision aggPrecision q) m) k
      = m k + (cells.map
          (fun c => coarseCellContribution t precision aggPrecision q c k)).sum := by
  intro cells
  induction cells with
  | nil => intro m k; simp
  | cons c rest ih =>
      intro m k
      rw [List.foldl_cons, List.map_cons, List.sum_cons,
        ih (t.areaCoarseStep precision aggPrecision q m c) k,
        areaCoarseStep_spec]
      ring

/-- Claim C2: in the worker's GetAreaCount with
`precision ≤ aggPrecision`, each routed cover cell `c` of length at
least `aggPrecision` adds the count stored at trie path
`c[:aggPrecision]` to output key `c[:precision]` exactly when the
decoded bbox of `c[:aggPrecision]` strictly overlaps the query bbox
(upper bounds exclusive); a cell touching the query bbox only on an
edge contributes nothing. -/
theorem c2_area_count_coarse (t : TrieNode) (precision aggPrecision : Int)
    (q : ghBbox) (cells : List (List Char)) (k : List Char)
    (h1 : 1 ≤ precision) (h2 : precision ≤ aggPrecision) :
    t.GetAreaCountCoarse precision aggPrecision q cells k
      = (cells.map
          (fun c => coarseCellContribution t precision aggPrecision q c k)).sum := by
  rw [TrieNode.GetAreaCountCoarse,
    if_neg (by push_neg; constructor <;> omega)]
  rw [getAreaCoarse_foldl]
  ring

/-- Witness for C2 on a one-cell routed cover over a two-insert trie. -/
theorem c2_area_count_coarse_witness :
    (Worker.insertAll [['s','p'], ['s','q']]).GetAreaCountCoarse 1 2
        ⟨0, 45, 0, 45⟩ [['s','p']] ['s']
      = ([['s','p']].map
          (fun c => coarseCellContribution (Worker.insertAll [['s','p'], ['s','q']])
            1 2 ⟨0, 45, 0, 45⟩ c ['s'])).sum :=
  c2_area_count_coarse (Worker.insertAll [['s','p'], ['s','q']]) 1 2
    ⟨0, 45, 0, 45⟩ [['s','p']] ['s'] (by decide) (by decide)

end Worker

/-! ## Gateway consistent-hash ring (src/gateway/ring.go)
The xxh3 hash of a key string is abstracted as a parameter
`hash : String → Nat`; all theorems are quantified over it. -/

namespace Gateway

/-- `RingNode` from ring.go lines 25-28. -/
structure RingNode where
  Hash : Nat
  Server : String
deriving DecidableEq

def defaultRingNode : RingNode := ⟨0, ""⟩

/-- Go's `sort.Search` loop (`i, j := 0, n; for i < j { h := (i+j)/2;
if !f(h) { i = h+1 } else { j = h } }; return i`), compiled with an
explicit fuel that dominates the window size `j - i`, which shrinks at
every iteration. -/
def sortSearchGo (f : Nat → Bool) : Nat → Nat → Nat → Nat
  | 0, i, _ => i
  | fuel + 1, i, j =>
      if i < j then
        let m := (i + j) / 2
        if f m then sortSearchGo f fuel i m else sortSearchGo f fuel (m + 1) j
      else i

def sortSearch (n : Nat) (f : Nat → Bool) : Nat := sortSearchGo f n 0 n

theorem sortSearchGo_spec (f : Nat → Bool) : ∀ (fuel i j : Nat), i ≤ j → j - i ≤ fuel →
    (∀ a b, i ≤ a → a ≤ b → b < j → f a = true → f b = true) →
    i ≤ sortSearchGo f fuel i j ∧ sortSearchGo f fuel i j ≤ j ∧
      (∀ k, i ≤ k → k < sortSearchGo f fuel i j → f k = false) ∧
      (sortSearchGo f fuel i j < j → f (sortSearchGo f fuel i j) = true) := by
  intro fuel
  induction fuel with
  | zero =>
      intro i j hij hfuel _
      have : i = j := by omega
      subst this
      rw [sortSearchGo]
      exact ⟨le_rfl, le_rfl, fun k h1 h2 => absurd h2 (by omega), fun h => absurd h (by omega)⟩
  | succ fuel ih =>
      intro i j hij hfuel hmono
      rw [sortSearchGo]
      by_cases hlt : i < j
      · rw [if_pos hlt]
        have hm1 : i ≤ (i + j) / 2 := by omega
        have hm2 : (i + j) / 2 < j := by omega
        by_cases hfm : f ((i + j) / 2) = true
        · rw [if_pos hfm]
          have hrec := ih i ((i + j) / 2) hm1 (by omega)
            (fun a b ha hab hb => hmono a b ha hab (by omega))
          obtain ⟨hr1, hr2, hr3, hr4⟩ := hrec
          refine ⟨hr1, by omega, hr3, ?_⟩
          intro _
          by_cases hcase : sortSearchGo f fuel i ((i + j) / 2) < (i + j) / 2
          · exact hr4 hcase
          · have : sortSearchGo f fuel i ((i + j) / 2) = (i + j) / 2 := by omega
            rw [this]; exact hfm
        · rw [if_neg hfm]
          have hrec := ih ((i + j) / 2 + 1) j (by omega) (by omega)
            (fun a b ha hab hb => hmono a b (by omega) hab hb)
          obtain ⟨hr1, hr2, hr3, hr4⟩ := hrec
          refine ⟨by omega, hr2, ?_, hr4⟩
          intro k hk1 hk2
          by_cases hkm : (i + j) / 2 + 1 ≤ k
          · exact hr3 k hkm hk2
          · have hkm' : k ≤ (i + j) / 2 := by omega
            cases hfk : f k with
            | false => rfl
            | true =>
                exact absurd (hmono k ((i + j) / 2) hk1 hkm' hm2 hfk) hfm
      · rw [if_neg hlt]
        have : i = j := by omega
        subst this
        exact ⟨le_rfl, le_rfl, fun k h1 h2 => absurd h2 (by omega), fun h => absurd h (by omega)⟩

theorem findIdx_eq_of {α : Type} (p : α → Bool) (d : α) :
    ∀ (l : List α) (r : Nat), r ≤ l.length →
    (∀ k, k < r → p (l.getD k d) = false) →
    (r < l.length → p (l.getD r d) = true) →
    l.findIdx p = r := by
  intro l
  induction l with
  | nil =>
      intro r hr _ _
      simp at hr
      simp [hr]
  | cons a l' ih =>
      intro r hr hbelow hat
      rw [List.findIdx_cons]
      cases r with
      | zero =>
          have : p a = true := hat (by simp)
          simp [this]
      | succ r' =>
          have ha : p a = false := hbelow 0 (by omega)
          simp only [List.getD] at ha
          simp only [ha, cond_false]
          have := ih r' (by simpa using hr)
            (fun k hk => hbelow (k + 1) (by omega))
            (fun hlt => hat (by simpa using hlt))
          omega

/-- `GatewayState.GetNodeAddress` from ring.go lines 191-211: empty ring
yields `""`; otherwise binary-search the sorted ring for the first
virtual node with `Hash ≥ hash(key)` and wrap to index 0. -/
def GetNodeAddress (hash : String → Nat) (ring : List RingNode) (key : String) : String :=
  if ring.length = 0 then ""
  else
    let h := hash key
    let index := sortSearch ring.length
      (fun i => decide (h ≤ (ring.getD i defaultRingNode).Hash))
    let index' := if index = ring.length then 0 else index
    (ring.getD index' defaultRingNode).Server

/-- Claim C7: `GetNodeAddress` returns the empty "no workers" result iff
the ring is empty; otherwise it returns the address at the first
position of the ascending-sorted ring whose hash is at least the key's
hash, wrapping to index 0 when no such position exists. -/
theorem c7_get_node_address (hash : String → Nat) (ring : List RingNode) (key : String)
    (hsorted : List.Pairwise (fun a b : RingNode => a.Hash ≤ b.Hash) ring)
    (hserv : ∀ nd ∈ ring, nd.Server ≠ "") :
    (GetNodeAddress hash ring key = "" ↔ ring = []) ∧
    (ring ≠ [] →
      GetNodeAddress hash ring key
        = (ring.getD
            (if ring.findIdx (fun nd => decide (hash key ≤ nd.Hash)) = ring.length
             then 0
             else ring.findIdx (fun nd => decide (hash key ≤ nd.Hash)))
            defaultRingNode).Server) := by
  by_cases hempty : ring = []
  · subst hempty
    refine ⟨by simp [GetNodeAddress], by simp⟩
  · have hn : ring.length ≠ 0 := by
      intro h; exact hempty (List.eq_nil_of_length_eq_zero h)
    have hpair := List.pairwise_iff_getElem.mp hsorted
    have hmono : ∀ a b, 0 ≤ a → a ≤ b → b < ring.length →
        (fun i => decide (hash key ≤ (ring.getD i defaultRingNode).Hash)) a = true →
        (fun i => decide (hash key ≤ (ring.getD i defaultRingNode).Hash)) b = true := by
      intro a b _ hab hb hfa
      have ha : a < ring.length := by omega
      simp only [decide_eq_true_eq] at hfa ⊢
      rw [List.getD_eq_getElem ring defaultRingNode ha] at hfa
      rw [List.getD_eq_getElem ring defaultRingNode hb]
      rcases Nat.lt_or_ge a b with hab' | hab'
      · exact le_trans hfa (hpair a b ha hb hab')
      · have : a = b := by omega
        subst this
        exact hfa
    have hspec := sortSearchGo_spec
      (fun i => decide (hash key ≤ (ring.getD i defaultRingNode).Hash))
      ring.length 0 ring.length (Nat.zero_le _) (by omega) hmono
    obtain ⟨h0r, hrn, hbelow, hat⟩ := hspec
    have hrn2 : sortSearch ring.length
        (fun i => decide (hash key ≤ (ring.getD i defaultRingNode).Hash))
        ≤ ring.length := hrn
    have hfind : ring.findIdx (fun nd => decide (hash key ≤ nd.Hash))
        = sortSearch ring.length
            (fun i => decide (hash key ≤ (ring.getD i defaultRingNode).Hash)) := by
      apply findIdx_eq_of _ defaultRingNode _ _ hrn
        (fun k hk => hbelow k (Nat.zero_le _) hk) hat
    have hidx' : (if sortSearch ring.length
          (fun i => decide (hash key ≤ (ring.getD i defaultRingNode).Hash)) = ring.length
        then 0
        else sortSearch ring.length
          (fun i => decide (hash key ≤ (ring.getD i defaultRingNode).Hash))) < ring.length := by
      split
      · omega
      · rename_i hne
        omega
    have hval : GetNodeAddress hash ring key
        = (ring.getD
            (if sortSearch ring.length
                (fun i => decide (hash key ≤ (ring.getD i defaultRingNode).Hash)) = ring.length
             then 0
             else sortSearch ring.length
               (fun i => decide (hash key ≤ (ring.getD i defaultRingNode).Hash)))
            defaultRingNode).Server := by
      rw [GetNodeAddress, if_neg hn]
    refine ⟨?_, fun _ => by rw [hval, hfind]⟩
    rw [hval]
    constructor
    · intro hcontra
      exfalso
      have hmem : ring.getD
          (if sortSearch ring.length
              (fun i => decide (hash key ≤ (ring.getD i defaultRingNode).Hash)) = ring.length
           then 0
           else sortSearch ring.length
             (fun i => decide (hash key ≤ (ring.getD i defaultRingNode).Hash)))
          defaultRingNode ∈ ring := by
        rw [List.getD_eq_getElem ring defaultRingNode hidx']
        exact List.getElem_mem _
      exact hserv _ hmem hcontra
    · intro h
      exact absurd h hempty

/-- A concrete two-node sorted ring for exercising the lookup. -/
def demoRing : List RingNode := [⟨5, "wA"⟩, ⟨10, "wB"⟩]

/-- Witness for C7 on a concrete two-node sorted ring. -/
theorem c7_get_node_address_witness :
    GetNodeAddress (fun _ => 7) demoRing "k"
      = (demoRing.getD
          (if demoRing.findIdx (fun nd => decide (7 ≤ nd.Hash)) = demoRing.length
           then 0
           else demoRing.findIdx (fun nd => decide (7 ≤ nd.Hash)))
          defaultRingNode).Server :=
  (c7_get_node_address (fun _ => 7) demoRing "k" (by decide) (by decide)).2 (by decide)

/-- `NUM_VIRTUAL_NODES` from ring.go line 16. -/
def NUM_VIRTUAL_NODES : Nat := 256

/-- The virtual nodes created for one physical worker (ring.go lines
76-85): hashes of `workerId + "#" + i` for `i ∈ [0, 256)`, all carrying
the worker's address. -/
def virtualNodes (hash : String → Nat) (workerId address : String) : List RingNode :=
  (List.range NUM_VIRTUAL_NODES).map
    (fun i => ⟨hash (workerId ++ "#" ++ toString i), address⟩)

/-- Ring plus last-seen table of `GatewayState` (ring.go lines 43-49);
the Go map `lastSeen` is a partial function from worker ids. -/
structure GatewayRingState where
  ring : List RingNode
  lastSeen : String → Option Int

/-- `GatewayState.addNode` from ring.go lines 51-89: if the worker id is
known only refresh `lastSeen`; otherwise append all 256 virtual nodes,
sort the ring by hash (Go's `sort.Sort`, an unstable comparison sort,
modelled by `mergeSort` — the claims proved below depend only on the
sorted order and the multiset of nodes), and record `lastSeen`.  The
capacity pre-allocation and the metrics counter have no effect on the
state. -/
def addNode (hash : String → Nat) (g : GatewayRingState)
    (workerId address : String) (now : Int) : GatewayRingState :=
  match g.lastSeen workerId with
  | some _ =>
      { g with lastSeen := fun w => if w = workerId then some now else g.lastSeen w }
  | none =>
      { ring := (g.ring ++ virtualNodes hash workerId address).mergeSort
          (fun a b => decide (a.Hash ≤ b.Hash)),
        lastSeen := fun w => if w = workerId then some now else g.lastSeen w }

theorem addNode_lastSeen_self (hash : String → Nat) (g : GatewayRingState)
    (workerId address : String) (now : Int) :
    (addNode hash g workerId address now).lastSeen workerId = some now := by
  cases hg : g.lastSeen workerId with
  | none => simp [addNode, hg]
  | some v => simp [addNode, hg]

/-- Claim C8: `addNode` is idempotent — a repeated call with the same
worker id leaves the ring exactly as after the first call and only
bumps that worker's `lastSeen` — and a first call for an unseen worker
id inserts exactly the 256 virtual nodes `hash(workerId + "#" + i)`
(as a permutation fact about the multiset of ring nodes) while keeping
the ring sorted ascending by hash. -/
theorem c8_add_node_idempotent (hash : String → Nat) (g : GatewayRingState)
    (workerId address : String) (t1 t2 : Int) :
    ((addNode hash (addNode hash g workerId address t1) workerId address t2).ring
        = (addNode hash g workerId address t1).ring ∧
      (addNode hash (addNode hash g workerId address t1) workerId address t2).lastSeen
          workerId = some t2 ∧
      (∀ w, w ≠ workerId →
        (addNode hash (addNode hash g workerId address t1) workerId address t2).lastSeen w
          = (addNode hash g workerId address t1).lastSeen w)) ∧
    (g.lastSeen workerId = none →
      ((addNode hash g workerId address t1).ring).Perm
          (g.ring ++ virtualNodes hash workerId address) ∧
      List.Pairwise (fun a b : RingNode => a.Hash ≤ b.Hash)
        (addNode hash g workerId address t1).ring ∧
      (addNode hash g workerId address t1).lastSeen workerId = some t1) := by
  have h1 := addNode_lastSeen_self hash g workerId address t1
  constructor
  · obtain ⟨s1, hgen⟩ : ∃ s1, addNode hash g workerId address t1 = s1 := ⟨_, rfl⟩
    rw [hgen] at h1 ⊢
    refine ⟨?_, ?_, ?_⟩
    · simp [addNode, h1]
    · simp [addNode, h1]
    · intro w hw
      simp [addNode, h1, hw]
  · intro hnone
    refine ⟨?_, ?_, h1⟩
    · simp only [addNode, hnone]
      exact List.mergeSort_perm _ _
    · simp only [addNode, hnone]
      have hs := @List.sorted_mergeSort RingNode
        (fun a b : RingNode => decide (a.Hash ≤ b.Hash))
        (fun a b c hab hbc => by
          simp only [decide_eq_true_eq] at hab hbc ⊢
          omega)
        (fun a b => by
          simp only [Bool.or_eq_true, decide_eq_true_eq]
          omega)
        (g.ring ++ virtualNodes hash workerId address)
      exact hs.imp (fun {a b} hab => by
        simpa only [decide_eq_true_eq] using hab)

/-- Witness for C8: a fresh insert of worker `"w1"` into a small state,
then a repeated call with a later timestamp. -/
theorem c8_add_node_idempotent_witness :
    (addNode String.length
        (addNode String.length ⟨demoRing, fun _ => none⟩ "w1" "addr1" 11)
        "w1" "addr1" 12).ring
      = (addNode String.length ⟨demoRing, fun _ => none⟩ "w1" "addr1" 11).ring ∧
    (addNode String.length
        (addNode String.length ⟨demoRing, fun _ => none⟩ "w1" "addr1" 11)
        "w1" "addr1" 12).lastSeen "w1" = some 12 ∧
    ((addNode String.length ⟨demoRing, fun _ => none⟩ "w1" "addr1" 11).ring).Perm
        (demoRing ++ virtualNodes String.length "w1" "addr1") ∧
    List.Pairwise (fun a b : RingNode => a.Hash ≤ b.Hash)
      (addNode String.length ⟨demoRing, fun _ => none⟩ "w1" "addr1" 11).ring := by
  have h := c8_add_node_idempotent String.length ⟨demoRing, fun _ => none⟩ "w1" "addr1" 11 12
  exact ⟨h.1.1, h.1.2.1, (h.2 rfl).1, (h.2 rfl).2.1⟩

end Gateway

/-! ## Sharding precision constants
The gateway router (the metrics-wired router file, line 28) sets
`SHARDING_PRECISION = 7`; the worker storage engine
(worker-node/ping.go line 11) sets `SHARDING_PRECISION = 6` with a TODO
noting it should be shared with the gateway. -/

namespace Worker

/-- `SHARDING_PRECISION` of the worker storage engine (ping.go line 11). -/
def SHARDING_PRECISION : Nat := 6

end Worker

namespace Gateway

/-- `SHARDING_PRECISION` of the gateway router (router file line 28). -/
def SHARDING_PRECISION : Nat := 7

end Gateway

/-- Claim C6: the sharding-precision constant is claimed to equal 7 with
the same value in the gateway router and the worker storage engine; in
the code the gateway router holds 7 but the worker engine holds 6, so
the two constants differ. -/
theorem c6_sharding_precision_mismatch :
    Gateway.SHARDING_PRECISION = 7 ∧ Worker.SHARDING_PRECISION = 6 ∧
      Worker.SHARDING_PRECISION ≠ Gateway.SHARDING_PRECISION := by
  decide

/-! ## Worker time wheel (src/worker-node/ping.go lines 78-104, 249-271,
286-392): a 10-slot array indexed by `timestamp mod PING_TTL`. -/

namespace Worker

/-- `PING_TTL` from ping.go line 94. -/
def PING_TTL : Int := 10

/-- `TimeBufferElement` from ping.go lines 88-91. -/
structure TimeBufferElement where
  Timestamp : Int
  TrieRoot : TrieNode

/-- The time wheel: slot `i` holds slot `timeBuffer[i].Data` (nullable).
Mutexes guard concurrency only and carry no state. -/
def TimeWheel : Type := Fin 10 → Option TimeBufferElement

/-- The initial wheel: every slot's `Data` is nil (ping.go lines 99-104). -/
def initWheel : TimeWheel := fun _ => none

/-- The slot index `now mod PING_TTL` computed by SendPing
(ping.go line 296); faithful to Go's `%` for `now ≥ 0`. -/
def timeIdx (now : Int) : Fin 10 :=
  ⟨(now % PING_TTL).toNat, by unfold PING_TTL; omega⟩

/-- State effect of `grpcServer.SendPing` (ping.go lines 295-310):
replace the bucket of slot `now mod TTL` when nil or dated to a
different second, then `Increment` the geohash into its trie. -/
def sendPingStep (s : TimeWheel) (now : Int) (gh : List Char) : TimeWheel :=
  let idx := timeIdx now
  let bucket : TimeBufferElement :=
    match s idx with
    | none => ⟨now, freshNode⟩
    | some el => if el.Timestamp ≠ now then ⟨now, freshNode⟩ else el
  fun j => if j = idx then some ⟨bucket.Timestamp, bucket.TrieRoot.Increment gh⟩ else s j

/-- One sweep of the janitor `cleanupTimeBuffer` (ping.go lines
254-269) at wall time `now`: clear the buckets older than the cutoff. -/
def janitorStep (s : TimeWheel) (now : Int) : TimeWheel :=
  fun i =>
    match s i with
    | none => none
    | some el => if el.Timestamp < now - PING_TTL then none else some el

/-- The operations that touch (or read) the time wheel. -/
inductive WorkerOp where
  | sendPing (now : Int) (gh : List Char)
  | getPings (now : Int) (gh : List Char)
  | getPingArea (now : Int)
  | janitor (now : Int)

def opNow : WorkerOp → Int
  | .sendPing now _ => now
  | .getPings now _ => now
  | .getPingArea now => now
  | .janitor now => now

/-- State transition of each operation: `GetPings` (ping.go lines
323-350) and `GetPingArea` (lines 352-392) only read the wheel. -/
def wheelStep (s : TimeWheel) : WorkerOp → TimeWheel
  | .sendPing now gh => sendPingStep s now gh
  | .getPings _ _ => s
  | .getPingArea _ => s
  | .janitor now => janitorStep s now

/-- The claimed invariant: a non-nil slot's timestamp is congruent to
its own index modulo `PING_TTL`. -/
def WheelInv (s : TimeWheel) : Prop :=
  ∀ (i : Fin 10) (el : TimeBufferElement), s i = some el →
    el.Timestamp % PING_TTL = (i.val : Int)

/-- Claim C10: the time-wheel invariant — whenever `timeBuffer[i].Data`
is non-nil its `Timestamp mod PING_TTL` equals `i` — holds initially
and is preserved by every operation (SendPing, GetPings, GetPingArea
and the janitor), for wall-clock times `now ≥ 0`. -/
theorem c10_time_wheel_invariant :
    WheelInv initWheel ∧
    (∀ (s : TimeWheel) (op : WorkerOp),
      WheelInv s → 0 ≤ opNow op → WheelInv (wheelStep s op)) := by
  constructor
  · intro i el h
    cases h
  · intro s op hinv hnow
    cases op with
    | sendPing now gh =>
        intro i el h
        simp only [wheelStep, sendPingStep] at h
        by_cases hi : i = timeIdx now
        · rw [if_pos hi] at h
          have hts : el.Timestamp =
              (match s (timeIdx now) with
               | none => (⟨now, freshNode⟩ : TimeBufferElement)
               | some el0 => if el0.Timestamp ≠ now then ⟨now, freshNode⟩ else el0).Timestamp := by
            cases h
            rfl
          have hidx : ((timeIdx now).val : Int) = now % PING_TTL := by
            simp only [timeIdx]
            simp only [opNow] at hnow
            unfold PING_TTL
            omega
          cases hbucket : s (timeIdx now) with
          | none =>
              rw [hbucket] at hts
              simp only at hts
              rw [hts, hi, hidx]
          | some el0 =>
              rw [hbucket] at hts
              by_cases hne : el0.Timestamp ≠ now
              · simp only [if_pos hne] at hts
                rw [hts, hi, hidx]
              · simp only [if_neg hne] at hts
                push_neg at hne
                have := hinv (timeIdx now) el0 hbucket
                rw [hts, hi]
                exact this
        · rw [if_neg hi] at h
          exact hinv i el h
    | getPings now gh =>
        exact hinv
    | getPingArea now =>
        exact hinv
    | janitor now =>
        intro i el h
        simp only [wheelStep, janitorStep] at h
        split at h
        · cases h
        · rename_i el0 heq
          by_cases hold : el0.Timestamp < now - PING_TTL
          · rw [if_pos hold] at h
            cases h
          · rw [if_neg hold] at h
            cases h
            exact hinv i el heq

/-- Witness for C10: the invariant after one SendPing at `now = 17`
into slot 7 of the fresh wheel. -/
theorem c10_time_wheel_invariant_witness :
    WheelInv (wheelStep initWheel (.sendPing 17 ['a'])) :=
  c10_time_wheel_invariant.2 initWheel (.sendPing 17 ['a'])
    c10_time_wheel_invariant.1 (by norm_num [opNow])

end Worker

/-! ## Registry gateway-heartbeat handler
(`registryServer.Heartbeat`, registry heartbeat file lines 27-83).
gRPC handles are abstracted as numbers; `grpc.NewClient` is the
parameter `newClient` (`none` = error).  A ghost list `closed` records
every handle the handler closes. -/

namespace Registry

/-- `RegistryState` (lines 17-25): gateway table, outbound client
handles keyed by address, last-seen table, plus the ghost close log. -/
structure RegistryState where
  Gateways : String → Option String
  Clients : String → Option Nat
  lastSeen : String → Option Int
  closed : List Nat

/-- The unconditional tail of the handler (lines 72-75): record the
gateway's address and refresh `lastSeen`. -/
def commit (s : RegistryState) (gatewayId address : String) (now : Int) : RegistryState :=
  { s with
    Gateways := fun x => if x = gatewayId then some address else s.Gateways x,
    lastSeen := fun x => if x = gatewayId then some now else s.lastSeen x }

/-- Lines 43-50 of the handler: close and delete the old outbound
handle when the gateway existed under a different, nonempty address
and a handle for it is stored.  `v` is the Go map read with its zero
value `""` when the id is unknown. -/
def closeOld (s : RegistryState) (gatewayId address : String) : RegistryState :=
  let v := (s.Gateways gatewayId).getD ""
  match s.Clients v with
  | some conn =>
      if (s.Gateways gatewayId).isSome = true ∧ v ≠ "" ∧ v ≠ address then
        { s with
          Clients := fun x => if x = v then none else s.Clients x,
          closed := conn :: s.closed }
      else s
  | none => s

/-- Lines 52-69 of the handler: make sure a handle for the new address
is stored, creating one via `newClient` when absent (`none` = the
`grpc.NewClient` error, propagated to the caller). -/
def ensureNew (newClient : String → Option Nat) (s : RegistryState)
    (address : String) : Option RegistryState :=
  match s.Clients address with
  | some _ => some s
  | none =>
      match newClient address with
      | none => none
      | some conn =>
          some { s with
            Clients := fun x => if x = address then some conn else s.Clients x }

/-- `registryServer.Heartbeat` (lines 27-83).  On a `newClient` error
the handler returns early (`false`) without committing; the old
handle, if any, has already been closed and removed by then. -/
def Heartbeat (newClient : String → Option Nat) (s : RegistryState)
    (gatewayId address : String) (now : Int) : Bool × RegistryState :=
  if ¬ (s.Gateways gatewayId).isSome = true
      ∨ (s.Gateways gatewayId).getD "" ≠ address then
    match ensureNew newClient (closeOld s gatewayId address) address with
    | none => (false, closeOld s gatewayId address)
    | some s2 => (true, commit s2 gatewayId address now)
  else (true, commit s gatewayId address now)

theorem commit_Gateways (s : RegistryState) (gatewayId address : String) (now : Int) :
    (commit s gatewayId address now).Gateways gatewayId = some address := by
  simp [commit]

theorem commit_lastSeen (s : RegistryState) (gatewayId address : String) (now : Int) :
    (commit s gatewayId address now).lastSeen gatewayId = some now := by
  simp [commit]

theorem closeOld_spec (s : RegistryState) (gatewayId address old : String) (h : Nat)
    (hold : s.Gateways gatewayId = some old) (hne : old ≠ address) (hne0 : old ≠ "")
    (hcl : s.Clients old = some h) :
    (closeOld s gatewayId address).Clients old = none ∧
    h ∈ (closeOld s gatewayId address).closed := by
  have hv : (s.Gateways gatewayId).getD "" = old := by rw [hold]; rfl
  have hex : (s.Gateways gatewayId).isSome = true := by rw [hold]; rfl
  rw [closeOld]
  simp only [hv, hcl]
  rw [if_pos ⟨hex, hne0, hne⟩]
  exact ⟨by simp, by simp⟩

theorem ensureNew_spec (newClient : String → Option Nat) (s s2 : RegistryState)
    (address : String) (hens : ensureNew newClient s address = some s2) :
    (s2.Clients address).isSome = true ∧
    (∀ x, x ≠ address → s2.Clients x = s.Clients x) ∧
    s2.closed = s.closed := by
  rw [ensureNew] at hens
  cases hca : s.Clients address with
  | some conn =>
      rw [hca] at hens
      cases hens
      exact ⟨by rw [hca]; rfl, fun x _ => rfl, rfl⟩
  | none =>
      rw [hca] at hens
      cases hnc : newClient address with
      | none => rw [hnc] at hens; cases hens
      | some conn =>
          rw [hnc] at hens
          cases hens
          refine ⟨by simp, fun x hx => by simp [hx], rfl⟩

/-- Claim C9: after a successful `Heartbeat(gatewayId, address)` the
gateway table maps `gatewayId` to `address` and its `lastSeen` is
refreshed to the call time; and if the gateway was previously known
under a different (nonempty) old address whose outbound handle was
stored, that handle is closed and removed while a handle exists for
the new address. -/
theorem c9_registry_heartbeat (newClient : String → Option Nat) (s : RegistryState)
    (gatewayId address : String) (now : Int)
    (hok : (Heartbeat newClient s gatewayId address now).1 = true) :
    (Heartbeat newClient s gatewayId address now).2.Gateways gatewayId = some address ∧
    (Heartbeat newClient s gatewayId address now).2.lastSeen gatewayId = some now ∧
    (∀ old h, s.Gateways gatewayId = some old → old ≠ address → old ≠ "" →
      s.Clients old = some h →
      (Heartbeat newClient s gatewayId address now).2.Clients old = none ∧
      h ∈ (Heartbeat newClient s gatewayId address now).2.closed ∧
      ((Heartbeat newClient s gatewayId address now).2.Clients address).isSome = true) := by
  by_cases hcond : ¬ (s.Gateways gatewayId).isSome = true
      ∨ (s.Gateways gatewayId).getD "" ≠ address
  · -- the registration/update branch
    cases hens : ensureNew newClient (closeOld s gatewayId address) address with
    | none =>
        have hres : Heartbeat newClient s gatewayId address now
            = (false, closeOld s gatewayId address) := by
          rw [Heartbeat, if_pos hcond, hens]
        rw [hres] at hok
        cases hok
    | some s2 =>
        have hres : Heartbeat newClient s gatewayId address now
            = (true, commit s2 gatewayId address now) := by
          rw [Heartbeat, if_pos hcond, hens]
        rw [hres]
        refine ⟨commit_Gateways s2 gatewayId address now,
          commit_lastSeen s2 gatewayId address now, ?_⟩
        intro old h hold hne hne0 hcl
        have hclose := closeOld_spec s gatewayId address old h hold hne hne0 hcl
        have hensure := ensureNew_spec newClient (closeOld s gatewayId address) s2
          address hens
        have hcl2 : s2.Clients old = none := by
          rw [hensure.2.1 old hne, hclose.1]
        have hmem2 : h ∈ s2.closed := by
          rw [hensure.2.2]
          exact hclose.2
        exact ⟨by simpa [commit] using hcl2, by simpa [commit] using hmem2,
          by simpa [commit] using hensure.1⟩
  · -- known id with unchanged address
    have hres : Heartbeat newClient s gatewayId address now
        = (true, commit s gatewayId address now) := by
      rw [Heartbeat, if_neg hcond]
    rw [hres]
    refine ⟨commit_Gateways s gatewayId address now,
      commit_lastSeen s gatewayId address now, ?_⟩
    intro old h hold hne _ _
    exfalso
    push_neg at hcond
    rw [hold] at hcond
    exact hne (by simpa using hcond.2)

/-- A concrete registry state: gateway `"g1"` known at `"oldaddr"`,
with a stored handle `5` for that address. -/
def regDemo : RegistryState :=
  { Gateways := fun x => if x = "g1" then some "oldaddr" else none,
    Clients := fun x => if x = "oldaddr" then some 5 else none,
    lastSeen := fun _ => none,
    closed := [] }

/-- Witness for C9: gateway `"g1"` re-registers at `"newaddr"`; the old
handle 5 is closed and removed and a handle exists for the new
address. -/
theorem c9_registry_heartbeat_witness :
    (Heartbeat (fun _ => some 9) regDemo "g1" "newaddr" 99).2.Gateways "g1"
      = some "newaddr" ∧
    (Heartbeat (fun _ => some 9) regDemo "g1" "newaddr" 99).2.lastSeen "g1"
      = some 99 ∧
    (Heartbeat (fun _ => some 9) regDemo "g1" "newaddr" 99).2.Clients "oldaddr"
      = none ∧
    5 ∈ (Heartbeat (fun _ => some 9) regDemo "g1" "newaddr" 99).2.closed ∧
    ((Heartbeat (fun _ => some 9) regDemo "g1" "newaddr" 99).2.Clients
      "newaddr").isSome = true := by
  have h := c9_registry_heartbeat (fun _ => some 9) regDemo "g1" "newaddr" 99 (by rfl)
  have h3 := h.2.2 "oldaddr" 5 rfl (by decide) (by decide) rfl
  exact ⟨h.1, h.2.1, h3.1, h3.2.1, h3.2.2⟩

end Registry

/-! ## Gateway HTTP handlers (the metrics-wired router file: `postPing`
lines 86-153, `getPingArea` lines 220-395).

`float64` request values are modelled exactly: a rational payload plus
explicit NaN/±Inf constructors, with the IEEE comparison semantics the
Go `<`/`>` operators have (every comparison involving NaN is false).
The floating-point geometry helpers (`geohashEncodeWithPrecision`,
`estimateGeohashCoverCount`, `chooseAggregatedPrecision`,
`geohashCoverSet`) and the gRPC layer are abstracted as parameters;
every claim below quantifies over their outcomes.  HTTP statuses are
bare numbers; alongside the status each handler returns the RPC it
sent (for `postPing`) or the combined body map (for `getPingArea`). -/

namespace Gateway

/-- A Go `float64` for comparison-only code paths. -/
inductive GoFloat where
  | finite (val : ℚ)
  | posInf
  | negInf
  | nan
deriving DecidableEq

def GoFloat.isNaN : GoFloat → Bool
  | .nan => true
  | _ => false

def GoFloat.isInf : GoFloat → Bool
  | .posInf => true
  | .negInf => true
  | _ => false

/-- IEEE-754 `<` on float64: any comparison with NaN is false. -/
def GoFloat.lt : GoFloat → GoFloat → Bool
  | .finite a, .finite b => decide (a < b)
  | .finite _, .posInf => true
  | .negInf, .finite _ => true
  | .negInf, .posInf => true
  | _, _ => false

/-- `MAX_GH_PRECISION` (router file line 26). -/
def MAX_GH_PRECISION : Nat := 8

/-- `MAX_PINGAREA_GEOHASHES` (router file line 27). -/
def MAX_PINGAREA_GEOHASHES : Int := 5000

/-- `gpsPing` (router file lines 21-24): pointer fields are `Option`s,
`none` when the JSON body lacks the key. -/
structure gpsPing where
  Latitude : Option GoFloat
  Longitude : Option GoFloat

/-- `postPing` (router file lines 86-153).  `body = none` is a JSON
decode error.  The result pairs the HTTP status with the `SendPing`
RPC issued, if any (worker address and geohash). -/
def postPing (hash : String → Nat) (ring : List RingNode)
    (encode : GoFloat → GoFloat → Nat → List Char)
    (conn : String → Option Unit)
    (sendPingOk : String → List Char → Bool)
    (body : Option gpsPing) : Nat × Option (String × List Char) :=
  match body with
  | none => (400, none)
  | some p =>
      match p.Latitude, p.Longitude with
      | some lat, some lng =>
          if lat.isNaN || lng.isNaN || lat.isInf || lng.isInf then (400, none)
          else if GoFloat.lt lat (.finite (-90)) || GoFloat.lt (.finite 90) lat
              || GoFloat.lt lng (.finite (-180)) || GoFloat.lt (.finite 180) lng then
            (400, none)
          else
            let gh := encode lat lng MAX_GH_PRECISION
            let truncatedGh := String.mk (gh.take SHARDING_PRECISION)
            let targetAddr := GetNodeAddress hash ring truncatedGh
            if targetAddr = "" then (503, none)
            else
              match conn targetAddr with
              | none => (500, none)
              | some _ =>
                  if sendPingOk targetAddr gh then (201, some (targetAddr, gh))
                  else (500, some (targetAddr, gh))
      | _, _ => (400, none)

/-- The parsed query of `getPingArea`; a `none` field is a missing
parameter or a `strconv` parse error (each maps to 400 in the code). -/
structure areaQuery where
  minLat : Option GoFloat
  maxLat : Option GoFloat
  minLng : Option GoFloat
  maxLng : Option GoFloat
  precision : Option Int

/-- The Go `grouped[targetAddr] = append(grouped[targetAddr], geohash)`
on an association list keyed by address. -/
def addToGroup : List (String × List (List Char)) → String → List Char
    → List (String × List (List Char))
  | [], addr, gh => [(addr, [gh])]
  | (a, ghs) :: rest, addr, gh =>
      if a = addr then (a, ghs ++ [gh]) :: rest
      else (a, ghs) :: addToGroup rest addr gh

/-- Grouping of the cover cells by responsible worker (router file
lines 300-310): cells whose `SHARDING_PRECISION` prefix finds no
worker are dropped.  The Go map is modelled as an association list in
first-appearance order; the per-worker cell lists and the properties
proved below do not depend on the map's iteration order. -/
def groupCover (hash : String → Nat) (ring : List RingNode)
    (cover : List (List Char)) : List (String × List (List Char)) :=
  cover.foldl (fun grouped geohash =>
    let tarGh := String.mk (geohash.take SHARDING_PRECISION)
    let targetAddr := GetNodeAddress hash ring tarGh
    if targetAddr = "" then grouped
    else addToGroup grouped targetAddr geohash) []

/-- `combined[gh] += count` over the association-list model of the
result map (router file lines 384-390, dropping the diagnostic
`Server` attribution). -/
def bumpAssoc : List (List Char × Int) → List Char → Int → List (List Char × Int)
  | [], gh, c => [(gh, c)]
  | (g0, c0) :: rest, gh, c =>
      if g0 = gh then (g0, c0 + c) :: rest
      else (g0, c0) :: bumpAssoc rest gh c

def addCounts : List (List Char × Int) → List (List Char × Int)
    → List (List Char × Int)
  | m, [] => m
  | m, (gh, c) :: rest => addCounts (bumpAssoc m gh c) rest

/-- Merge of all per-worker results (router file lines 382-391). -/
def combineResults (results : List (List (List Char × Int))) : List (List Char × Int) :=
  results.foldl addCounts []

/-- The routed fan-out loop (router file lines 313-337): a `GetConn`
failure returns 500 immediately; a failed `GetPingArea` RPC is skipped
(`continue`, the 500 of the earlier revision is commented out) so a
partial response is allowed. -/
def routedLoop (conn : String → Option Unit)
    (rpcArea : String → List (List Char) → Option (List (List Char × Int))) :
    List (String × List (List Char)) → List (List (List Char × Int))
    → Nat × List (List Char × Int)
  | [], acc => (200, combineResults acc)
  | (addr, ghs) :: rest, acc =>
      match conn addr with
      | none => (500, [])
      | some _ =>
          match rpcArea addr ghs with
          | none => routedLoop conn rpcArea rest acc
          | some counts => routedLoop conn rpcArea rest (acc ++ [counts])

/-- The broadcast fan-out loop (router file lines 341-374): iterate the
ring's virtual nodes, deduplicate physical servers, and skip both
connection and RPC failures. -/
def broadcastLoop (conn : String → Option Unit)
    (rpcArea : String → List (List Char) → Option (List (List Char × Int)))
    (cover : List (List Char)) :
    List RingNode → List String → List (List (List Char × Int))
    → Nat × List (List Char × Int)
  | [], _, acc => (200, combineResults acc)
  | node :: rest, seen, acc =>
      if node.Server ∈ seen then broadcastLoop conn rpcArea cover rest seen acc
      else
        match conn node.Server with
        | none => broadcastLoop conn rpcArea cover rest (node.Server :: seen) acc
        | some _ =>
            match rpcArea node.Server cover with
            | none => broadcastLoop conn rpcArea cover rest (node.Server :: seen) acc
            | some counts =>
                broadcastLoop conn rpcArea cover rest (node.Server :: seen)
                  (acc ++ [counts])

/-- `getPingArea` (router file lines 220-395): parameter validation,
the cover-size (413) and aggregated-precision (400) checks, then
routed or broadcast fan-out depending on
`precUsed >= SHARDING_PRECISION`, and the merged result map. -/
def getPingArea (hash : String → Nat) (ring : List RingNode)
    (estimated : Int) (choosePrec : Option Int) (cover : List (List Char))
    (conn : String → Option Unit)
    (rpcArea : String → List (List Char) → Option (List (List Char × Int)))
    (q : areaQuery) : Nat × List (List Char × Int) :=
  match q.minLat, q.maxLat, q.minLng, q.maxLng, q.precision with
  | some minLat, some maxLat, some minLng, some maxLng, some precision =>
      if precision < 1 ∨ (MAX_GH_PRECISION : Int) < precision then (400, [])
      else if GoFloat.lt minLat (.finite (-90)) || GoFloat.lt (.finite 90) maxLat
          || GoFloat.lt maxLat minLat || GoFloat.lt minLng (.finite (-180))
          || GoFloat.lt (.finite 180) maxLng || GoFloat.lt maxLng minLng then
        (400, [])
      else if MAX_PINGAREA_GEOHASHES < estimated then (413, [])
      else
        match choosePrec with
        | none => (400, [])
        | some precUsed =>
            if (SHARDING_PRECISION : Int) ≤ precUsed then
              routedLoop conn rpcArea (groupCover hash ring cover) []
            else
              broadcastLoop conn rpcArea cover ring [] []
  | _, _, _, _, _ => (400, [])

end Gateway

namespace Gateway

theorem broadcastLoop_status (conn : String → Option Unit)
    (rpcArea : String → List (List Char) → Option (List (List Char × Int)))
    (cover : List (List Char)) :
    ∀ (nodes : List RingNode) (seen : List String)
      (acc : List (List (List Char × Int))),
      (broadcastLoop conn rpcArea cover nodes seen acc).1 = 200 := by
  intro nodes
  induction nodes with
  | nil => intro seen acc; rfl
  | cons node rest ih =>
      intro seen acc
      rw [broadcastLoop]
      by_cases hseen : node.Server ∈ seen
      · rw [if_pos hseen]; exact ih seen acc
      · rw [if_neg hseen]
        cases conn node.Server with
        | none => exact ih _ acc
        | some u =>
            cases rpcArea node.Server cover with
            | none => exact ih _ acc
            | some counts => exact ih _ _

theorem routedLoop_status (conn : String → Option Unit)
    (rpcArea : String → List (List Char) → Option (List (List Char × Int))) :
    ∀ (grouped : List (String × List (List Char)))
      (acc : List (List (List Char × Int))),
      (routedLoop conn rpcArea grouped acc).1
        = if grouped.any (fun g => (conn g.1).isNone) then 500 else 200 := by
  intro grouped
  induction grouped with
  | nil => intro acc; rfl
  | cons g rest ih =>
      intro acc
      obtain ⟨addr, ghs⟩ := g
      rw [routedLoop]
      cases hc : conn addr with
      | none => simp [hc]
      | some u =>
          have hfalse : (conn addr).isNone = false := by rw [hc]; rfl
          cases rpcArea addr ghs with
          | none =>
              rw [ih acc, List.any_cons, hfalse, Bool.false_or]
          | some counts =>
              rw [ih (acc ++ [counts]), List.any_cons, hfalse, Bool.false_or]

theorem groupCover_nil_ring (hash : String → Nat) (cover : List (List Char)) :
    groupCover hash [] cover = [] := by
  rw [groupCover]
  induction cover with
  | nil => rfl
  | cons c rest ih => simpa [GetNodeAddress] using ih

/-- Claim C4: a `POST /ping` body missing lat or lng, or with a NaN,
infinite or out-of-range coordinate, yields HTTP 400 and no `SendPing`
RPC is sent to any worker. -/
theorem c4_post_ping_validation (hash : String → Nat) (ring : List RingNode)
    (encode : GoFloat → GoFloat → Nat → List Char)
    (conn : String → Option Unit) (sendPingOk : String → List Char → Bool)
    (p : gpsPing)
    (hbad : p.Latitude = none ∨ p.Longitude = none ∨
      (∃ lat, p.Latitude = some lat ∧ (lat.isNaN = true ∨ lat.isInf = true ∨
        ∃ x, lat = .finite x ∧ (x < -90 ∨ 90 < x))) ∨
      (∃ lng, p.Longitude = some lng ∧ (lng.isNaN = true ∨ lng.isInf = true ∨
        ∃ x, lng = .finite x ∧ (x < -180 ∨ 180 < x)))) :
    postPing hash ring encode conn sendPingOk (some p) = (400, none) := by
  cases hlat : p.Latitude with
  | none => simp [postPing, hlat]
  | some lat =>
      cases hlng : p.Longitude with
      | none => simp [postPing, hlat, hlng]
      | some lng =>
          rw [postPing]
          simp only [hlat, hlng]
          by_cases hA : (lat.isNaN || lng.isNaN || lat.isInf || lng.isInf) = true
          · simp [hA]
          · have hB : (GoFloat.lt lat (.finite (-90)) || GoFloat.lt (.finite 90) lat
                || GoFloat.lt lng (.finite (-180)) || GoFloat.lt (.finite 180) lng)
                = true := by
              rcases hbad with h | h | h | h
              · rw [hlat] at h; cases h
              · rw [hlng] at h; cases h
              · obtain ⟨lat', heq, hcase⟩ := h
                rw [hlat] at heq
                cases heq
                rcases hcase with h1 | h1 | h1
                · exact absurd (by simp [h1]) hA
                · exact absurd (by simp [h1]) hA
                · obtain ⟨x, hx, hrange⟩ := h1
                  subst hx
                  rcases hrange with hr | hr
                  · simp [GoFloat.lt, hr]
                  · simp [GoFloat.lt, hr]
              · obtain ⟨lng', heq, hcase⟩ := h
                rw [hlng] at heq
                cases heq
                rcases hcase with h1 | h1 | h1
                · exact absurd (by simp [h1]) hA
                · exact absurd (by simp [h1]) hA
                · obtain ⟨x, hx, hrange⟩ := h1
                  subst hx
                  rcases hrange with hr | hr
                  · simp [GoFloat.lt, hr]
                  · simp [GoFloat.lt, hr]
            simp only [Bool.not_eq_true] at hA
            rw [hA, hB]
            simp

/-- Witness for C4: latitude 91 is rejected with 400 and no RPC. -/
theorem c4_post_ping_validation_witness :
    postPing (fun _ => 0) [] (fun _ _ _ => ['e']) (fun _ => some ()) (fun _ _ => true)
      (some ⟨some (.finite 91), some (.finite 0)⟩) = (400, none) :=
  c4_post_ping_validation (fun _ => 0) [] (fun _ _ _ => ['e']) (fun _ => some ())
    (fun _ _ => true) ⟨some (.finite 91), some (.finite 0)⟩
    (.inr (.inr (.inl ⟨.finite 91, rfl,
      .inr (.inr ⟨91, rfl, .inr (by decide)⟩)⟩)))

end Gateway

namespace Gateway

/-- Claim C3 (amended): with the ring empty, `POST /ping` with a valid
body returns HTTP 503, while `GET /pingArea` with parameters that pass
the validation, size and precision checks returns HTTP 200 with an
empty result object (the fan-out finds no worker to ask; no 503 path
exists in `getPingArea`). -/
theorem c3_empty_ring_responses (hash : String → Nat)
    (encode : GoFloat → GoFloat → Nat → List Char)
    (conn : String → Option Unit) (sendPingOk : String → List Char → Bool)
    (rpcArea : String → List (List Char) → Option (List (List Char × Int)))
    (estimated : Int) (choosePrec : Option Int) (cover : List (List Char))
    (p : gpsPing) (lat lng : GoFloat)
    (hlat : p.Latitude = some lat) (hlng : p.Longitude = some lng)
    (hval1 : (lat.isNaN || lng.isNaN || lat.isInf || lng.isInf) = false)
    (hval2 : (GoFloat.lt lat (.finite (-90)) || GoFloat.lt (.finite 90) lat
        || GoFloat.lt lng (.finite (-180)) || GoFloat.lt (.finite 180) lng) = false)
    (q : areaQuery) (minLat maxLat minLng maxLng : GoFloat) (precision precUsed : Int)
    (hq1 : q.minLat = some minLat) (hq2 : q.maxLat = some maxLat)
    (hq3 : q.minLng = some minLng) (hq4 : q.maxLng = some maxLng)
    (hq5 : q.precision = some precision)
    (hprec : ¬ (precision < 1 ∨ (MAX_GH_PRECISION : Int) < precision))
    (hbbox : (GoFloat.lt minLat (.finite (-90)) || GoFloat.lt (.finite 90) maxLat
        || GoFloat.lt maxLat minLat || GoFloat.lt minLng (.finite (-180))
        || GoFloat.lt (.finite 180) maxLng || GoFloat.lt maxLng minLng) = false)
    (hest : ¬ (MAX_PINGAREA_GEOHASHES < estimated))
    (hchoose : choosePrec = some precUsed) :
    postPing hash [] encode conn sendPingOk (some p) = (503, none) ∧
    getPingArea hash [] estimated choosePrec cover conn rpcArea q = (200, []) := by
  constructor
  · rw [postPing]
    simp only [hlat, hlng, hval1, hval2]
    have haddr : GetNodeAddress hash []
        (String.mk ((encode lat lng MAX_GH_PRECISION).take SHARDING_PRECISION)) = "" := rfl
    simp [haddr]
  · rw [getPingArea.eq_def]
    simp only [hq1, hq2, hq3, hq4, hq5]
    rw [if_neg hprec]
    rw [hbbox]
    simp only [Bool.false_eq_true, if_false]
    rw [if_neg hest, hchoose]
    show (if (SHARDING_PRECISION : Int) ≤ precUsed then
        routedLoop conn rpcArea (groupCover hash [] cover) []
      else broadcastLoop conn rpcArea cover [] [] []) = (200, [])
    by_cases hrouted : (SHARDING_PRECISION : Int) ≤ precUsed
    · rw [if_pos hrouted, groupCover_nil_ring]
      rfl
    · rw [if_neg hrouted]
      rfl

/-- Counterexample for C3 as stated: a concrete `GET /pingArea` request
that passes every check, sent while the ring is empty, is answered
with HTTP 200 (and an empty body), not 503. -/
theorem c3_empty_ring_counterexample :
    (getPingArea (fun _ => 0) [] 1 (some 8)
      [['e','z','s','4','2','e','8','5']] (fun _ => none) (fun _ _ => none)
      ⟨some (.finite 0), some (.finite 1), some (.finite 0), some (.finite 1),
        some 8⟩).1 = 200 ∧
    ((getPingArea (fun _ => 0) [] 1 (some 8)
      [['e','z','s','4','2','e','8','5']] (fun _ => none) (fun _ _ => none)
      ⟨some (.finite 0), some (.finite 1), some (.finite 0), some (.finite 1),
        some 8⟩).1 = 503 → False) := by
  constructor
  · decide
  · decide

/-- Witness for C3 (amended) at a concrete valid request. -/
theorem c3_empty_ring_responses_witness :
    postPing (fun _ => 0) [] (fun _ _ _ => ['e']) (fun _ => none) (fun _ _ => true)
      (some ⟨some (.finite 42), some (.finite (-8))⟩) = (503, none) ∧
    getPingArea (fun _ => 0) [] 1 (some 8) [['e','z','s','4','2','e','8','5']]
      (fun _ => none) (fun _ _ => none)
      ⟨some (.finite 0), some (.finite 1), some (.finite 0), some (.finite 1),
        some 8⟩ = (200, []) :=
  c3_empty_ring_responses (fun _ => 0) (fun _ _ _ => ['e']) (fun _ => none)
    (fun _ _ => true) (fun _ _ => none) 1 (some 8)
    [['e','z','s','4','2','e','8','5']]
    ⟨some (.finite 42), some (.finite (-8))⟩ (.finite 42) (.finite (-8))
    rfl rfl (by decide) (by decide)
    ⟨some (.finite 0), some (.finite 1), some (.finite 0), some (.finite 1), some 8⟩
    (.finite 0) (.finite 1) (.finite 0) (.finite 1) 8 8
    rfl rfl rfl rfl rfl (by decide) (by decide) (by decide) rfl

/-- Claim C5 (amended): the broadcast fan-out (`precUsed <
SHARDING_PRECISION`) always answers 200, skipping per-worker failures;
the routed fan-out (`precUsed ≥ SHARDING_PRECISION`) likewise skips
per-worker `GetPingArea` RPC failures (the 500 of an earlier revision
is commented out) and returns 500 exactly when fetching a pooled
connection for one of the grouped workers fails. -/
theorem c5_fanout_failure_handling (hash : String → Nat) (ring : List RingNode)
    (conn : String → Option Unit)
    (rpcArea : String → List (List Char) → Option (List (List Char × Int)))
    (estimated : Int) (choosePrec : Option Int) (cover : List (List Char))
    (q : areaQuery) (minLat maxLat minLng maxLng : GoFloat) (precision precUsed : Int)
    (hq1 : q.minLat = some minLat) (hq2 : q.maxLat = some maxLat)
    (hq3 : q.minLng = some minLng) (hq4 : q.maxLng = some maxLng)
    (hq5 : q.precision = some precision)
    (hprec : ¬ (precision < 1 ∨ (MAX_GH_PRECISION : Int) < precision))
    (hbbox : (GoFloat.lt minLat (.finite (-90)) || GoFloat.lt (.finite 90) maxLat
        || GoFloat.lt maxLat minLat || GoFloat.lt minLng (.finite (-180))
        || GoFloat.lt (.finite 180) maxLng || GoFloat.lt maxLng minLng) = false)
    (hest : ¬ (MAX_PINGAREA_GEOHASHES < estimated))
    (hchoose : choosePrec = some precUsed) :
    (precUsed < (SHARDING_PRECISION : Int) →
      (getPingArea hash ring estimated choosePrec cover conn rpcArea q).1 = 200) ∧
    ((SHARDING_PRECISION : Int) ≤ precUsed →
      (getPingArea hash ring estimated choosePrec cover conn rpcArea q).1
        = if (groupCover hash ring cover).any (fun g => (conn g.1).isNone)
          then 500 else 200) := by
  have hmain : getPingArea hash ring estimated choosePrec cover conn rpcArea q
      = if (SHARDING_PRECISION : Int) ≤ precUsed then
          routedLoop conn rpcArea (groupCover hash ring cover) []
        else broadcastLoop conn rpcArea cover ring [] [] := by
    rw [getPingArea.eq_def]
    simp only [hq1, hq2, hq3, hq4, hq5]
    rw [if_neg hprec]
    rw [hbbox]
    simp only [Bool.false_eq_true, if_false]
    rw [if_neg hest, hchoose]
  constructor
  · intro hlt
    rw [hmain, if_neg (by omega)]
    exact broadcastLoop_status conn rpcArea cover ring [] []
  · intro hge
    rw [hmain, if_pos hge]
    exact routedLoop_status conn rpcArea (groupCover hash ring cover) []

/-- Counterexample for C5 as stated: a routed request
(`precUsed = 8 ≥ SHARDING_PRECISION`) whose single grouped worker
connects fine but fails its `GetPingArea` RPC is answered 200 (with the
partial, here empty, merge), not 500. -/
theorem c5_routed_rpc_failure_counterexample :
    (getPingArea (fun _ => 0) [⟨5, "w1"⟩] 1 (some 8)
      [['e','z','s','4','2','e','8','5']] (fun _ => some ()) (fun _ _ => none)
      ⟨some (.finite 0), some (.finite 1), some (.finite 0), some (.finite 1),
        some 8⟩).1 = 200 ∧
    ((getPingArea (fun _ => 0) [⟨5, "w1"⟩] 1 (some 8)
      [['e','z','s','4','2','e','8','5']] (fun _ => some ()) (fun _ _ => none)
      ⟨some (.finite 0), some (.finite 1), some (.finite 0), some (.finite 1),
        some 8⟩).1 = 500 → False) := by
  constructor
  · decide
  · decide

/-- Witness for C5 (amended) at a concrete routed request with one
worker whose RPC fails. -/
theorem c5_fanout_failure_handling_witness :
    (getPingArea (fun _ => 0) [⟨5, "w1"⟩] 1 (some 8)
      [['e','z','s','4','2','e','8','5']] (fun _ => some ()) (fun _ _ => none)
      ⟨some (.finite 0), some (.finite 1), some (.finite 0), some (.finite 1),
        some 8⟩).1
      = if (groupCover (fun _ => 0) [⟨5, "w1"⟩]
            [['e','z','s','4','2','e','8','5']]).any
            (fun g => ((fun _ : String => some ()) g.1).isNone)
        then 500 else 200 :=
  (c5_fanout_failure_handling (fun _ => 0) [⟨5, "w1"⟩] (fun _ => some ())
    (fun _ _ => none) 1 (some 8) [['e','z','s','4','2','e','8','5']]
    ⟨some (.finite 0), some (.finite 1), some (.finite 0), some (.finite 1), some 8⟩
    (.finite 0) (.finite 1) (.finite 0) (.finite 1) 8 8
    rfl rfl rfl rfl rfl (by decide) (by decide) (by decide) rfl).2 (by decide)

end Gateway
